import Mathlib

/-!
Shallow embedding of the micrograd-rs autograd engine (src/engine.rs).

The Rust engine stores nodes as Rc<RefCell<InnerValue>> handles.  We model the
heap as a list of node records; a handle is its index, and reference identity
(Rc::ptr_eq, the Hash impl) is index equality.  f64 is modelled as ℚ: every
value a claim exercises is exactly representable, and the engine performs only
field arithmetic on stored values (exp/tanh forward values, which are
transcendental, are taken as arguments — no claim depends on them).
-/

namespace Micrograd

/-- Operator tags, from enum Op in engine.rs.  Note that the source Pow tag
carries no payload: the exponent is not stored in the node. -/
inductive Op where
  | add
  | mul
  | exp
  | pow
  | relu
  | tanh
  deriving DecidableEq, Repr

/-- One node record, from struct InnerValue: data, grad, _prev (the operand
handles, in operand order), _op. -/
structure Node where
  data : ℚ
  grad : ℚ
  prev : List Nat
  op : Option Op
  deriving DecidableEq, Repr

/-- The heap of Rc-shared nodes; a handle is its index. -/
abbrev Store := List Node

/-- Value::data for handle i (0 as junk default on a dangling handle, which
cannot arise from the Rust API). -/
def dataAt (st : Store) (i : Nat) : ℚ := ((st[i]?).map Node.data).getD 0

/-- Value::grad for handle i. -/
def gradAt (st : Store) (i : Nat) : ℚ := ((st[i]?).map Node.grad).getD 0

/-- Point update of the heap at index i (no-op out of range). -/
def updateAt : Store → Nat → (Node → Node) → Store
  | [], _, _ => []
  | n :: rest, 0, f => f n :: rest
  | n :: rest, Nat.succ i, f => n :: updateAt rest i f

/-- Value::add_grad: grad += g, in place. -/
def addGrad (st : Store) (i : Nat) (g : ℚ) : Store :=
  updateAt st i (fun n => { n with grad := n.grad + g })

/-- Value::set_grad. -/
def setGrad (st : Store) (i : Nat) (g : ℚ) : Store :=
  updateAt st i (fun n => { n with grad := g })

/-- Value::set_data. -/
def setData (st : Store) (i : Nat) (d : ℚ) : Store :=
  updateAt st i (fun n => { n with data := d })

/-- f64::powf in the rational model.  Integer exponents are exact
(x.powf(n) = x^n, x.powf(-1.0) = 1/x, the only forms any claim exercises);
a fractional exponent, whose f64 result is irrational in general, is mapped
to 0. -/
def powf (x y : ℚ) : ℚ := if y.den = 1 then x ^ y.num else 0

/-- Value::new: fresh node with grad 0, appended to the heap; returns the new
heap and the new handle.  Append-only construction mirrors Rc allocation. -/
def mkValue (st : Store) (d : ℚ) (children : List Nat) (op : Option Op) :
    Store × Nat :=
  (st ++ [{ data := d, grad := 0, prev := children, op := op }], st.length)

/-- A leaf: Value::new(data, vec![], None). -/
def leaf (st : Store) (d : ℚ) : Store × Nat := mkValue st d [] none

/-- impl Add for Value: data a + data b, children [a, b]. -/
def addVV (st : Store) (a b : Nat) : Store × Nat :=
  mkValue st (dataAt st a + dataAt st b) [a, b] (some Op.add)

/-- impl Mul for Value: data a * data b, children [a, b]. -/
def mulVV (st : Store) (a b : Nat) : Store × Nat :=
  mkValue st (dataAt st a * dataAt st b) [a, b] (some Op.mul)

/-- Value::pow: forward data.powf(exponent); the node records only the operand,
the exponent is used for the forward value and then discarded (the Pow tag has
no payload in the source). -/
def powV (st : Store) (a : Nat) (k : ℚ) : Store × Nat :=
  mkValue st (powf (dataAt st a) k) [a] (some Op.pow)

/-- Value::relu: forward data.max(0.0). -/
def reluV (st : Store) (a : Nat) : Store × Nat :=
  mkValue st (max (dataAt st a) 0) [a] (some Op.relu)

/-- Value::exp.  f64::exp is transcendental, hence not a function on ℚ; the
forward value y is taken as an argument.  No claim depends on it, and the
backward rule for Exp reads only the stored data. -/
def expV (st : Store) (a : Nat) (y : ℚ) : Store × Nat :=
  mkValue st y [a] (some Op.exp)

/-- Value::tanh, forward value taken as an argument like expV. -/
def tanhV (st : Store) (a : Nat) (y : ℚ) : Store × Nat :=
  mkValue st y [a] (some Op.tanh)

/-- impl Add of Value and f64 (x + 1.0): self + Value::new(other, vec![], None):
the scalar is lifted to a leaf, used as the right operand. -/
def addVS (st : Store) (a : Nat) (c : ℚ) : Store × Nat :=
  let p := leaf st c
  addVV p.1 a p.2

/-- impl Add of f64 and Value (1.0 + x): Value::new(self, vec![], None) + other:
the lifted leaf is the left operand. -/
def addSV (st : Store) (c : ℚ) (b : Nat) : Store × Nat :=
  let p := leaf st c
  addVV p.1 p.2 b

/-- impl Mul of Value and f64 (x * 1.0): self * Value::new(other, vec![], None). -/
def mulVS (st : Store) (a : Nat) (c : ℚ) : Store × Nat :=
  let p := leaf st c
  mulVV p.1 a p.2

/-- impl Mul of f64 and Value (1.0 * x) is defined in the source as other * self:
the NODE becomes the left operand and the lifted scalar leaf the right one. -/
def mulSV (st : Store) (c : ℚ) (b : Nat) : Store × Nat :=
  mulVS st b c

/-- impl Neg: self * -1.0. -/
def negV (st : Store) (a : Nat) : Store × Nat :=
  mulVS st a (-1)

/-- impl Sub for Value: self + (-other). -/
def subVV (st : Store) (a b : Nat) : Store × Nat :=
  let p := negV st b
  addVV p.1 a p.2

/-- impl Sub of Value and f64 (x - 1.0): self + (-other), the scalar negated as
an f64 before lifting. -/
def subVS (st : Store) (a : Nat) (c : ℚ) : Store × Nat :=
  addVS st a (-c)

/-- impl Sub of f64 and Value (1.0 - x): self + (-other); -other builds the Neg
node first, then the scalar is lifted by the f64 + Value impl. -/
def subSV (st : Store) (c : ℚ) (b : Nat) : Store × Nat :=
  let p := negV st b
  addSV p.1 c p.2

/-- impl Div for Value: self * other.pow(-1.0).  The source defines division
for two nodes only: there is no Div of Value and f64 nor of f64 and Value. -/
def divVV (st : Store) (a b : Nat) : Store × Nat :=
  let p := powV st b (-1)
  mulVV p.1 a p.2

/-- Value::lvalue: _prev[0]; none models the out-of-bounds index panic. -/
def lvalue (st : Store) (i : Nat) : Option Nat :=
  (st[i]?).bind (fun n => n.prev[0]?)

/-- Value::rvalue: _prev[1]; none models the out-of-bounds index panic. -/
def rvalue (st : Store) (i : Nat) : Option Nat :=
  (st[i]?).bind (fun n => n.prev[1]?)

/-- Value::children. -/
def childrenOf (st : Store) (i : Nat) : List Nat :=
  ((st[i]?).map Node.prev).getD []

/-- Value::op. -/
def opOf (st : Store) (i : Nat) : Option Op :=
  (st[i]?).bind Node.op

/-- One step of Value::backward's inner backward_prev: distribute node i's grad
to its operands according to the op tag.  none models the _prev indexing panic.
Reads happen where the source reads them: in the Add and Mul arms the second
contribution re-reads grad and data after the first in-place addition. -/
def backward_prev (st : Store) (i : Nat) : Option Store :=
  match st[i]? with
  | none => none
  | some v =>
    match v.op with
    | none => some st
    | some Op.add =>
        match v.prev[0]? with
        | none => none
        | some l =>
            let st1 := addGrad st l (gradAt st i)
            match v.prev[1]? with
            | none => none
            | some r => some (addGrad st1 r (gradAt st1 i))
    | some Op.mul =>
        match v.prev[0]? with
        | none => none
        | some l =>
            match v.prev[1]? with
            | none => none
            | some r =>
                let st1 := addGrad st l (gradAt st i * dataAt st r)
                some (addGrad st1 r (gradAt st1 i * dataAt st1 l))
    | some Op.exp =>
        match v.prev[0]? with
        | none => none
        | some l => some (addGrad st l (gradAt st i * dataAt st i))
    | some Op.pow =>
        match v.prev[0]? with
        | none => none
        | some l =>
            let a := dataAt st l
            some (addGrad st l (gradAt st i * (a * powf (dataAt st i) (a - 1))))
    | some Op.relu =>
        match v.prev[0]? with
        | none => none
        | some l =>
            if gradAt st i > 0 then some (addGrad st l (gradAt st i)) else some st
    | some Op.tanh =>
        match v.prev[0]? with
        | none => none
        | some l => some (addGrad st l (gradAt st i * (1 - powf (dataAt st i) 2)))

/-- The recursive DFS topological_sort of Value::backward.  The fuel argument
stands for the Rust call stack (the source recursion is unbounded; acyclicity
makes fuel i+1 always sufficient, proved below).  The second accumulator
component models the identity-keyed HashSet (membership = handle equality =
Rc::ptr_eq), the first the output vector: insert into the set on first
encounter, recurse into the operands left to right, then append the node. -/
def topoSortAux (st : Store) : Nat → Nat → List Nat × List Nat → List Nat × List Nat
  | 0, _, acc => acc
  | Nat.succ fuel, i, acc =>
      if i ∈ acc.2 then acc
      else
        let acc1 : List Nat × List Nat := (acc.1, i :: acc.2)
        let acc2 := (childrenOf st i).foldl (fun a c => topoSortAux st fuel c a) acc1
        (acc2.1 ++ [i], acc2.2)

/-- The topological order computed by Value::backward for root r. -/
def topological_sort (st : Store) (r : Nat) : List Nat :=
  (topoSortAux st (r + 1) r ([], [])).1

/-- Value::backward: topological sort, overwrite the root grad to 1.0, then
apply backward_prev to each node in reverse topological order. -/
def backward (st : Store) (r : Nat) : Option Store :=
  let topo := topological_sort st r
  (topo.reverse).foldlM (fun s i => backward_prev s i) (setGrad st r 1)

/-- Arity of each op tag (spec data-model invariant 1). -/
def arity : Option Op → Nat
  | none => 0
  | some Op.add => 2
  | some Op.mul => 2
  | some _ => 1

/-- Every node's operand count matches its op's arity. -/
def WellFormed (st : Store) : Prop :=
  ∀ n ∈ st, n.prev.length = arity n.op

/-- Operand edges point strictly to earlier (older) nodes: the append-only
construction discipline, and the sense in which the parents relation is
acyclic. -/
def Acyclic (st : Store) : Prop :=
  ∀ (i : Nat) (n : Node), st[i]? = some n → ∀ c ∈ n.prev, c < i

/-- Executable check for Acyclic, for concrete witnesses. -/
def acyclicFrom : Nat → Store → Bool
  | _, [] => true
  | k, n :: rest => (n.prev.all (fun c => decide (c < k))) && acyclicFrom (k + 1) rest

/-- Stores built through the graph-building surface of the spec (leaf and the
op constructors), starting from the empty heap, with valid operand handles. -/
inductive Built : Store → Prop
  | nil : Built []
  | leafB {st : Store} (d : ℚ) : Built st → Built (leaf st d).1
  | addB {st : Store} {a b : Nat} : Built st → a < st.length → b < st.length →
      Built (addVV st a b).1
  | mulB {st : Store} {a b : Nat} : Built st → a < st.length → b < st.length →
      Built (mulVV st a b).1
  | powB {st : Store} {a : Nat} (k : ℚ) : Built st → a < st.length →
      Built (powV st a k).1
  | reluB {st : Store} {a : Nat} : Built st → a < st.length →
      Built (reluV st a).1
  | expB {st : Store} {a : Nat} (y : ℚ) : Built st → a < st.length →
      Built (expV st a y).1
  | tanhB {st : Store} {a : Nat} (y : ℚ) : Built st → a < st.length →
      Built (tanhV st a y).1

/-! ### Basic heap lemmas -/

theorem updateAt_length (st : Store) (i : Nat) (f : Node → Node) :
    (updateAt st i f).length = st.length := by
  induction st generalizing i with
  | nil => rfl
  | cons n rest ih =>
      cases i with
      | zero => rfl
      | succ j => simpa [updateAt] using ih j

theorem updateAt_get?_ne (st : Store) (i j : Nat) (f : Node → Node) (h : j ≠ i) :
    (updateAt st i f)[j]? = st[j]? := by
  induction st generalizing i j with
  | nil => rfl
  | cons n rest ih =>
      cases i with
      | zero =>
          cases j with
          | zero => exact absurd rfl h
          | succ k => simp [updateAt]
      | succ i2 =>
          cases j with
          | zero => simp [updateAt]
          | succ k =>
              simpa [updateAt] using ih i2 k (fun hk => h (by simp [hk]))

theorem updateAt_get?_self (st : Store) (i : Nat) (f : Node → Node) :
    (updateAt st i f)[i]? = (st[i]?).map f := by
  induction st generalizing i with
  | nil => rfl
  | cons n rest ih =>
      cases i with
      | zero => simp [updateAt]
      | succ j => simpa [updateAt] using ih j

theorem gradAt_addGrad_ne (st : Store) (i j : Nat) (g : ℚ) (h : j ≠ i) :
    gradAt (addGrad st i g) j = gradAt st j := by
  unfold gradAt addGrad
  rw [updateAt_get?_ne st i j _ h]

theorem gradAt_setGrad_self (st : Store) (i : Nat) (g : ℚ) (n : Node)
    (h : st[i]? = some n) : gradAt (setGrad st i g) i = g := by
  unfold gradAt setGrad
  rw [updateAt_get?_self, h]
  rfl

theorem get?_isSome_of_lt (st : Store) (j : Nat) (h : j < st.length) :
    ∃ n, st[j]? = some n := by
  cases hg : st[j]? with
  | none => exact absurd (List.getElem?_eq_none_iff.mp hg) (by omega)
  | some n => exact ⟨n, rfl⟩

/-! ### Frame relation: two heaps with identical data, op and operand lists
(only grads may differ). -/

def sameShape (st st2 : Store) : Prop :=
  st2.length = st.length ∧
  ∀ i : Nat, (st2[i]?).map Node.data = (st[i]?).map Node.data ∧
       (st2[i]?).map Node.op = (st[i]?).map Node.op ∧
       (st2[i]?).map Node.prev = (st[i]?).map Node.prev

theorem sameShape_refl (st : Store) : sameShape st st :=
  ⟨rfl, fun _ => ⟨rfl, rfl, rfl⟩⟩

theorem sameShape_trans {s1 s2 s3 : Store}
    (h1 : sameShape s1 s2) (h2 : sameShape s2 s3) : sameShape s1 s3 :=
  ⟨h2.1.trans h1.1, fun i =>
    ⟨((h2.2 i).1).trans (h1.2 i).1,
     ((h2.2 i).2.1).trans (h1.2 i).2.1,
     ((h2.2 i).2.2).trans (h1.2 i).2.2⟩⟩

theorem sameShape_updateAt (st : Store) (i : Nat) (f : Node → Node)
    (hd : ∀ n, (f n).data = n.data) (ho : ∀ n, (f n).op = n.op)
    (hp : ∀ n, (f n).prev = n.prev) : sameShape st (updateAt st i f) := by
  refine ⟨updateAt_length st i f, fun j => ?_⟩
  by_cases h : j = i
  · subst h
    rw [updateAt_get?_self]
    cases st[j]? with
    | none => exact ⟨rfl, rfl, rfl⟩
    | some n => simp [hd, ho, hp]
  · rw [updateAt_get?_ne st i j f h]
    exact ⟨rfl, rfl, rfl⟩

theorem sameShape_addGrad (st : Store) (i : Nat) (g : ℚ) :
    sameShape st (addGrad st i g) :=
  sameShape_updateAt st i _ (fun _ => rfl) (fun _ => rfl) (fun _ => rfl)

theorem sameShape_setGrad (st : Store) (i : Nat) (g : ℚ) :
    sameShape st (setGrad st i g) :=
  sameShape_updateAt st i _ (fun _ => rfl) (fun _ => rfl) (fun _ => rfl)

theorem sameShape_get? {st s : Store} (h : sameShape st s) {i : Nat} {n : Node}
    (hn : st[i]? = some n) :
    ∃ n2, s[i]? = some n2 ∧ n2.data = n.data ∧ n2.op = n.op ∧ n2.prev = n.prev := by
  obtain ⟨hlen, hall⟩ := h
  obtain ⟨hd, ho, hp⟩ := hall i
  rw [hn] at hd ho hp
  obtain ⟨n2, hn2, hdd⟩ := Option.map_eq_some'.mp hd
  obtain ⟨n3, hn3, hoo⟩ := Option.map_eq_some'.mp ho
  obtain ⟨n4, hn4, hpp⟩ := Option.map_eq_some'.mp hp
  rw [hn2] at hn3 hn4
  cases hn3
  cases hn4
  exact ⟨n2, hn2, hdd, hoo, hpp⟩

theorem sameShape_childrenOf {st s : Store} (h : sameShape st s) (i : Nat) :
    childrenOf s i = childrenOf st i := by
  unfold childrenOf
  rw [(h.2 i).2.2]

theorem sameShape_dataAt {st s : Store} (h : sameShape st s) (i : Nat) :
    dataAt s i = dataAt st i := by
  unfold dataAt
  rw [(h.2 i).1]

theorem childrenOf_eq_of_get? {st : Store} {i : Nat} {v : Node}
    (hv : st[i]? = some v) : childrenOf st i = v.prev := by
  unfold childrenOf
  rw [hv]
  rfl

/-- Every successful backward_prev step is the identity or one or two in-place
grad additions, each targeting an operand of node i. -/
theorem backward_prev_cases {st st2 : Store} {i : Nat}
    (h : backward_prev st i = some st2) :
    st2 = st ∨
    (∃ l g, l ∈ childrenOf st i ∧ st2 = addGrad st l g) ∨
    (∃ l g1 r g2, l ∈ childrenOf st i ∧ r ∈ childrenOf st i ∧
      st2 = addGrad (addGrad st l g1) r g2) := by
  cases hv : st[i]? with
  | none => simp only [backward_prev, hv] at h; exact Option.noConfusion h
  | some v =>
      have hch : childrenOf st i = v.prev := childrenOf_eq_of_get? hv
      cases hop : v.op with
      | none =>
          simp only [backward_prev, hv, hop, Option.some.injEq] at h
          exact Or.inl h.symm
      | some o =>
          cases o with
          | add =>
              cases hl : v.prev[0]? with
              | none => simp only [backward_prev, hv, hop, hl] at h; exact Option.noConfusion h
              | some l =>
                  cases hr : v.prev[1]? with
                  | none => simp only [backward_prev, hv, hop, hl, hr] at h; exact Option.noConfusion h
                  | some r =>
                      simp only [backward_prev, hv, hop, hl, hr,
                        Option.some.injEq] at h
                      exact Or.inr (Or.inr ⟨l, _, r, _,
                        hch ▸ List.getElem?_mem hl, hch ▸ List.getElem?_mem hr, h.symm⟩)
          | mul =>
              cases hl : v.prev[0]? with
              | none => simp only [backward_prev, hv, hop, hl] at h; exact Option.noConfusion h
              | some l =>
                  cases hr : v.prev[1]? with
                  | none => simp only [backward_prev, hv, hop, hl, hr] at h; exact Option.noConfusion h
                  | some r =>
                      simp only [backward_prev, hv, hop, hl, hr,
                        Option.some.injEq] at h
                      exact Or.inr (Or.inr ⟨l, _, r, _,
                        hch ▸ List.getElem?_mem hl, hch ▸ List.getElem?_mem hr, h.symm⟩)
          | exp =>
              cases hl : v.prev[0]? with
              | none => simp only [backward_prev, hv, hop, hl] at h; exact Option.noConfusion h
              | some l =>
                  simp only [backward_prev, hv, hop, hl, Option.some.injEq] at h
                  exact Or.inr (Or.inl ⟨l, _, hch ▸ List.getElem?_mem hl, h.symm⟩)
          | pow =>
              cases hl : v.prev[0]? with
              | none => simp only [backward_prev, hv, hop, hl] at h; exact Option.noConfusion h
              | some l =>
                  simp only [backward_prev, hv, hop, hl, Option.some.injEq] at h
                  exact Or.inr (Or.inl ⟨l, _, hch ▸ List.getElem?_mem hl, h.symm⟩)
          | relu =>
              cases hl : v.prev[0]? with
              | none => simp only [backward_prev, hv, hop, hl] at h; exact Option.noConfusion h
              | some l =>
                  simp only [backward_prev, hv, hop, hl] at h
                  split at h
                  · exact Or.inr (Or.inl ⟨l, _, hch ▸ List.getElem?_mem hl,
                      (Option.some.inj h).symm⟩)
                  · exact Or.inl (Option.some.inj h).symm
          | tanh =>
              cases hl : v.prev[0]? with
              | none => simp only [backward_prev, hv, hop, hl] at h; exact Option.noConfusion h
              | some l =>
                  simp only [backward_prev, hv, hop, hl, Option.some.injEq] at h
                  exact Or.inr (Or.inl ⟨l, _, hch ▸ List.getElem?_mem hl, h.symm⟩)

theorem backward_prev_sameShape {st st2 : Store} {i : Nat}
    (h : backward_prev st i = some st2) : sameShape st st2 := by
  rcases backward_prev_cases h with h1 | ⟨l, g, _, h1⟩ | ⟨l, g1, r, g2, _, _, h1⟩
  · exact h1 ▸ sameShape_refl st
  · exact h1 ▸ sameShape_addGrad st l g
  · exact h1 ▸ sameShape_trans (sameShape_addGrad st l g1)
      (sameShape_addGrad (addGrad st l g1) r g2)

/-- A backward_prev step changes no grad outside the operand set of node i. -/
theorem backward_prev_grad_frame {st st2 : Store} {i : Nat}
    (h : backward_prev st i = some st2) (x : Nat)
    (hx : ∀ c ∈ childrenOf st i, c ≠ x) : gradAt st2 x = gradAt st x := by
  rcases backward_prev_cases h with h1 | ⟨l, g, hl, h1⟩ | ⟨l, g1, r, g2, hl, hr, h1⟩
  · rw [h1]
  · rw [h1, gradAt_addGrad_ne _ _ _ _ (fun he => hx l hl he.symm)]
  · rw [h1, gradAt_addGrad_ne _ _ _ _ (fun he => hx r hr he.symm),
      gradAt_addGrad_ne _ _ _ _ (fun he => hx l hl he.symm)]

/-- backward_prev succeeds on a node whose operand count matches its arity. -/
theorem backward_prev_total {st : Store} {i : Nat} {n : Node}
    (hn : st[i]? = some n) (ha : n.prev.length = arity n.op) :
    (backward_prev st i).isSome := by
  have h0 : ∀ k, k + 1 ≤ n.prev.length → ∃ l, n.prev[k]? = some l := by
    intro k hk
    cases hg : n.prev[k]? with
    | none => exact absurd (List.getElem?_eq_none_iff.mp hg) (by omega)
    | some l => exact ⟨l, rfl⟩
  cases hop : n.op with
  | none => simp [backward_prev, hn, hop]
  | some o =>
      rw [hop] at ha
      cases o with
      | add =>
          obtain ⟨l, hl⟩ := h0 0 (by rw [ha]; decide)
          obtain ⟨r, hr⟩ := h0 1 (by rw [ha]; decide)
          simp [backward_prev, hn, hop, hl, hr]
      | mul =>
          obtain ⟨l, hl⟩ := h0 0 (by rw [ha]; decide)
          obtain ⟨r, hr⟩ := h0 1 (by rw [ha]; decide)
          simp [backward_prev, hn, hop, hl, hr]
      | exp =>
          obtain ⟨l, hl⟩ := h0 0 (by rw [ha]; decide)
          simp [backward_prev, hn, hop, hl]
      | pow =>
          obtain ⟨l, hl⟩ := h0 0 (by rw [ha]; decide)
          simp [backward_prev, hn, hop, hl]
      | relu =>
          obtain ⟨l, hl⟩ := h0 0 (by rw [ha]; decide)
          simp only [backward_prev, hn, hop, hl]
          split <;> simp
      | tanh =>
          obtain ⟨l, hl⟩ := h0 0 (by rw [ha]; decide)
          simp [backward_prev, hn, hop, hl]

/-- In an acyclic heap the operands of node j are strictly older than j. -/
theorem acyclic_children {st : Store} (hA : Acyclic st) (j : Nat) :
    ∀ c ∈ childrenOf st j, c < j := by
  intro c hc
  cases hj : st[j]? with
  | none =>
      rw [childrenOf, hj] at hc
      exact absurd hc (by simp)
  | some n => exact hA j n hj c ((childrenOf_eq_of_get? hj) ▸ hc)

theorem foldlM_backward_prev_sameShape :
    ∀ (L : List Nat) (s s2 : Store),
      List.foldlM (fun a i => backward_prev a i) s L = some s2 → sameShape s s2 := by
  intro L
  induction L with
  | nil =>
      intro s s2 h
      rw [List.foldlM_nil] at h
      exact (Option.some.inj h) ▸ sameShape_refl s
  | cons j L ih =>
      intro s s2 h
      rw [List.foldlM_cons] at h
      cases hb : backward_prev s j with
      | none => rw [hb] at h; exact Option.noConfusion h
      | some s1 =>
          rw [hb] at h
          have h2 : List.foldlM (fun a i => backward_prev a i) s1 L = some s2 := h
          exact sameShape_trans (backward_prev_sameShape hb) (ih s1 s2 h2)

theorem foldlM_backward_prev_total {st : Store} (hW : WellFormed st) :
    ∀ (L : List Nat) (s : Store), sameShape st s → (∀ j ∈ L, j < st.length) →
      (List.foldlM (fun a i => backward_prev a i) s L).isSome := by
  intro L
  induction L with
  | nil => intro s _ _; rw [List.foldlM_nil]; rfl
  | cons j L ih =>
      intro s hs hmem
      obtain ⟨n, hn⟩ := get?_isSome_of_lt st j (hmem j (by simp))
      have harity : n.prev.length = arity n.op := hW n (List.getElem?_mem hn)
      obtain ⟨n2, hn2, _, hop2, hprev2⟩ := sameShape_get? hs hn
      have harity2 : n2.prev.length = arity n2.op := by rw [hprev2, hop2]; exact harity
      rw [List.foldlM_cons]
      cases hb : backward_prev s j with
      | none =>
          exact absurd hb (by
            have hbt := backward_prev_total hn2 harity2
            intro hc
            rw [hc] at hbt
            simp [Option.isSome] at hbt)
      | some s1 =>
          have h2 : (List.foldlM (fun a i => backward_prev a i) s1 L).isSome :=
            ih s1 (sameShape_trans hs (backward_prev_sameShape hb))
              (fun x hx => hmem x (by simp [hx]))
          exact h2

/-- Along the whole backward loop, the grad of any index strictly above every
processed node is untouched. -/
theorem foldlM_backward_prev_grad_frame {st : Store} (hA : Acyclic st) (r : Nat) :
    ∀ (L : List Nat) (s s2 : Store), (∀ j ∈ L, j ≤ r) → sameShape st s →
      List.foldlM (fun a i => backward_prev a i) s L = some s2 →
      gradAt s2 r = gradAt s r := by
  intro L
  induction L with
  | nil =>
      intro s s2 _ _ h
      rw [List.foldlM_nil] at h
      rw [Option.some.inj h]
  | cons j L ih =>
      intro s s2 hmem hs h
      rw [List.foldlM_cons] at h
      cases hb : backward_prev s j with
      | none => rw [hb] at h; exact Option.noConfusion h
      | some s1 =>
          rw [hb] at h
          have h2 : List.foldlM (fun a i => backward_prev a i) s1 L = some s2 := h
          have hstep : gradAt s1 r = gradAt s r := by
            refine backward_prev_grad_frame hb r (fun c hc => ?_)
            rw [sameShape_childrenOf hs] at hc
            have hcj : c < j := acyclic_children hA j c hc
            have hjr : j ≤ r := hmem j (by simp)
            omega
          rw [ih s1 s2 (fun x hx => hmem x (by simp [hx]))
            (sameShape_trans hs (backward_prev_sameShape hb)) h2, hstep]

/-! ### Topological-order invariants of the DFS -/

/-- Parents-before-children order: scanning the list left to right with the
already-scanned elements (plus done) at hand, every element's operands have all
been seen already. -/
def okFrom (st : Store) : List Nat → List Nat → Prop
  | _, [] => True
  | done, i :: rest => (∀ c ∈ childrenOf st i, c ∈ done) ∧ okFrom st (i :: done) rest

theorem okFrom_snoc (st : Store) :
    ∀ (xs done : List Nat) (i : Nat), okFrom st done xs →
      (∀ c ∈ childrenOf st i, c ∈ xs ∨ c ∈ done) → okFrom st done (xs ++ [i]) := by
  intro xs
  induction xs with
  | nil =>
      intro done i _ hc
      refine ⟨fun c hcc => ?_, trivial⟩
      rcases hc c hcc with h | h
      · exact absurd h (by simp)
      · exact h
  | cons x xs ih =>
      intro done i h hc
      refine ⟨h.1, ih (x :: done) i h.2 (fun c hcc => ?_)⟩
      rcases hc c hcc with h1 | h2
      · rcases List.mem_cons.mp h1 with e | m
        · exact Or.inr (by simp [e])
        · exact Or.inl m
      · exact Or.inr (by simp [h2])

theorem okFrom_position (st : Store) :
    ∀ (topo done : List Nat), okFrom st done topo →
      ∀ (k i : Nat), topo[k]? = some i → ∀ c ∈ childrenOf st i,
        c ∈ done ∨ ∃ m, m < k ∧ topo[m]? = some c := by
  intro topo
  induction topo with
  | nil =>
      intro done _ k i hk
      rw [List.getElem?_nil] at hk
      exact Option.noConfusion hk
  | cons x rest ih =>
      intro done h k i hk c hc
      cases k with
      | zero =>
          rw [List.getElem?_cons_zero] at hk
          obtain rfl := Option.some.inj hk
          exact Or.inl (h.1 c hc)
      | succ k2 =>
          rw [List.getElem?_cons_succ] at hk
          rcases ih (x :: done) h.2 k2 i hk c hc with hd | ⟨m, hm, hmm⟩
          · rcases List.mem_cons.mp hd with e | m2
            · exact Or.inr ⟨0, by omega, by simp [e]⟩
            · exact Or.inl m2
          · exact Or.inr ⟨m + 1, by omega, by
              rw [List.getElem?_cons_succ]; exact hmm⟩

/-- Master invariant of the DFS: starting from a state whose emitted list is in
parents-before-children order and whose pending (seen but not emitted) nodes
all lie strictly above i, the call emits i, only grows both components, keeps
the order invariant, leaves the pending set unchanged, and adds to the seen set
only handles at or below i. -/
theorem topoSortAux_master {st : Store} (hA : Acyclic st) :
    ∀ (fuel i : Nat) (acc : List Nat × List Nat), i < fuel →
      (∀ j ∈ acc.1, j ∈ acc.2) → okFrom st [] acc.1 →
      (∀ j ∈ acc.2, j ∉ acc.1 → i < j) →
      (∀ j ∈ acc.1, j ∈ (topoSortAux st fuel i acc).1) ∧
      (∀ j ∈ acc.2, j ∈ (topoSortAux st fuel i acc).2) ∧
      (∀ j ∈ (topoSortAux st fuel i acc).1, j ∈ (topoSortAux st fuel i acc).2) ∧
      okFrom st [] (topoSortAux st fuel i acc).1 ∧
      (∀ j ∈ (topoSortAux st fuel i acc).2,
        j ∉ (topoSortAux st fuel i acc).1 → j ∈ acc.2 ∧ j ∉ acc.1) ∧
      (∀ j ∈ (topoSortAux st fuel i acc).2, j ∈ acc.2 ∨ j ≤ i) ∧
      i ∈ (topoSortAux st fuel i acc).1 := by
  intro fuel
  induction fuel with
  | zero => intro i acc h; omega
  | succ f ih =>
      intro i acc hif h1 h2 h3
      have hunf : topoSortAux st (Nat.succ f) i acc =
          (if i ∈ acc.2 then acc
           else
             (((childrenOf st i).foldl (fun a c => topoSortAux st f c a)
                (acc.1, i :: acc.2)).1 ++ [i],
              ((childrenOf st i).foldl (fun a c => topoSortAux st f c a)
                (acc.1, i :: acc.2)).2)) := rfl
      by_cases hmem : i ∈ acc.2
      · rw [hunf, if_pos hmem]
        have hi1 : i ∈ acc.1 := by
          by_contra hni
          exact absurd (h3 i hmem hni) (by omega)
        exact ⟨fun j h => h, fun j h => h, h1, h2, fun j hj hnj => ⟨hj, hnj⟩,
          fun j hj => Or.inl hj, hi1⟩
      · have hcs : ∀ c ∈ childrenOf st i, c < i := acyclic_children hA i
        have fold_spec : ∀ (cs : List Nat), (∀ c ∈ cs, c < i) →
            ∀ (a : List Nat × List Nat),
            (∀ j ∈ a.1, j ∈ a.2) → okFrom st [] a.1 →
            (∀ j ∈ a.2, j ∉ a.1 → j = i ∨ (j ∈ acc.2 ∧ j ∉ acc.1)) →
            (∀ j ∈ a.1, j ∈ (cs.foldl (fun x c => topoSortAux st f c x) a).1) ∧
            (∀ j ∈ a.2, j ∈ (cs.foldl (fun x c => topoSortAux st f c x) a).2) ∧
            (∀ j ∈ (cs.foldl (fun x c => topoSortAux st f c x) a).1,
              j ∈ (cs.foldl (fun x c => topoSortAux st f c x) a).2) ∧
            okFrom st [] (cs.foldl (fun x c => topoSortAux st f c x) a).1 ∧
            (∀ j ∈ (cs.foldl (fun x c => topoSortAux st f c x) a).2,
              j ∉ (cs.foldl (fun x c => topoSortAux st f c x) a).1 →
              j = i ∨ (j ∈ acc.2 ∧ j ∉ acc.1)) ∧
            (∀ j ∈ (cs.foldl (fun x c => topoSortAux st f c x) a).2,
              j ∈ a.2 ∨ j < i) ∧
            (∀ c ∈ cs, c ∈ (cs.foldl (fun x c => topoSortAux st f c x) a).1) := by
          intro cs
          induction cs with
          | nil =>
              intro _ a ha1 ha2 ha3
              exact ⟨fun j h => h, fun j h => h, ha1, ha2,
                fun j hj hnj => ha3 j hj hnj, fun j hj => Or.inl hj,
                fun c hc => absurd hc (by simp)⟩
          | cons c cs ihc =>
              intro hlt a ha1 ha2 ha3
              have hci : c < i := hlt c (by simp)
              have hstack : ∀ j ∈ a.2, j ∉ a.1 → c < j := by
                intro j hj hnj
                rcases ha3 j hj hnj with e | ⟨hj2, hnj2⟩
                · omega
                · exact lt_trans hci (h3 j hj2 hnj2)
              obtain ⟨p1, p2, p3, p4, p5, p6, p7⟩ :=
                ih c a (by omega) ha1 ha2 hstack
              have hr3 : ∀ j ∈ (topoSortAux st f c a).2,
                  j ∉ (topoSortAux st f c a).1 →
                  j = i ∨ (j ∈ acc.2 ∧ j ∉ acc.1) := by
                intro j hj hnj
                obtain ⟨hja, hnja⟩ := p5 j hj hnj
                exact ha3 j hja hnja
              obtain ⟨q1, q2, q3, q4, q5, q6, q7⟩ :=
                ihc (fun x hx => hlt x (by simp [hx])) (topoSortAux st f c a)
                  p3 p4 hr3
              rw [List.foldl_cons]
              refine ⟨fun j hj => q1 j (p1 j hj), fun j hj => q2 j (p2 j hj),
                q3, q4, q5, ?_, ?_⟩
              · intro j hj
                rcases q6 j hj with hr | hlt2
                · rcases p6 j hr with ha | hc2
                  · exact Or.inl ha
                  · exact Or.inr (by omega)
                · exact Or.inr hlt2
              · intro x hx
                rcases List.mem_cons.mp hx with e | m
                · exact e ▸ q1 c p7
                · exact q7 x m
        rw [hunf, if_neg hmem]
        obtain ⟨q1, q2, q3, q4, q5, q6, q7⟩ :=
          fold_spec (childrenOf st i) hcs (acc.1, i :: acc.2)
            (fun j hj => List.mem_cons_of_mem i (h1 j hj)) h2
            (fun j hj hnj => by
              rcases List.mem_cons.mp hj with e | m
              · exact Or.inl e
              · exact Or.inr ⟨m, hnj⟩)
        refine ⟨fun j hj => List.mem_append_left _ (q1 j hj),
          fun j hj => q2 j (List.mem_cons_of_mem i hj), ?_, ?_, ?_, ?_, ?_⟩
        · intro j hj
          rcases List.mem_append.mp hj with hb | he
          · exact q3 j hb
          · rw [List.mem_singleton.mp he]
            exact q2 i (List.mem_cons_self i _)
        · exact okFrom_snoc st _ [] i q4 (fun c hc => Or.inl (q7 c hc))
        · intro j hj hnj
          have hnb : j ∉ ((childrenOf st i).foldl
              (fun x c => topoSortAux st f c x) (acc.1, i :: acc.2)).1 :=
            fun hb => hnj (List.mem_append_left _ hb)
          have hne : j ≠ i := by
            intro e
            refine hnj ?_
            rw [e]
            exact List.mem_append_right _ (List.mem_singleton_self i)
          rcases q5 j hj hnb with e | hok
          · exact absurd e hne
          · exact hok
        · intro j hj
          rcases q6 j hj with hc | hlt2
          · rcases List.mem_cons.mp hc with e | m
            · exact Or.inr (by omega)
            · exact Or.inl m
          · exact Or.inr (by omega)
        · exact List.mem_append_right _ (List.mem_singleton_self i)

/-- On an acyclic heap the DFS is insensitive to the fuel bound as soon as it
exceeds the root handle: the Rust recursion (which has no bound) terminates,
and fuel i+1 computes its result. -/
theorem topoSortAux_fuel_irrel {st : Store} (hA : Acyclic st) :
    ∀ (i f1 f2 : Nat) (acc : List Nat × List Nat), i < f1 → i < f2 →
      topoSortAux st f1 i acc = topoSortAux st f2 i acc := by
  intro i
  induction i using Nat.strong_induction_on with
  | _ i ihs =>
      intro f1 f2 acc hf1 hf2
      cases f1 with
      | zero => omega
      | succ a =>
          cases f2 with
          | zero => omega
          | succ b =>
              have e1 : topoSortAux st (Nat.succ a) i acc =
                  (if i ∈ acc.2 then acc
                   else
                     (((childrenOf st i).foldl (fun x c => topoSortAux st a c x)
                        (acc.1, i :: acc.2)).1 ++ [i],
                      ((childrenOf st i).foldl (fun x c => topoSortAux st a c x)
                        (acc.1, i :: acc.2)).2)) := rfl
              have e2 : topoSortAux st (Nat.succ b) i acc =
                  (if i ∈ acc.2 then acc
                   else
                     (((childrenOf st i).foldl (fun x c => topoSortAux st b c x)
                        (acc.1, i :: acc.2)).1 ++ [i],
                      ((childrenOf st i).foldl (fun x c => topoSortAux st b c x)
                        (acc.1, i :: acc.2)).2)) := rfl
              rw [e1, e2]
              by_cases hmem : i ∈ acc.2
              · rw [if_pos hmem, if_pos hmem]
              · rw [if_neg hmem, if_neg hmem]
                have hfold : ∀ (cs : List Nat), (∀ c ∈ cs, c < i) →
                    ∀ (x : List Nat × List Nat),
                    cs.foldl (fun y c => topoSortAux st a c y) x =
                    cs.foldl (fun y c => topoSortAux st b c y) x := by
                  intro cs
                  induction cs with
                  | nil => intro _ x; rfl
                  | cons c cs ihc =>
                      intro hlt x
                      have hci : c < i := hlt c (by simp)
                      rw [List.foldl_cons, List.foldl_cons,
                        ihs c hci a b x (by omega) (by omega)]
                      exact ihc (fun y hy => hlt y (by simp [hy])) _
                rw [hfold (childrenOf st i) (acyclic_children hA i) _]

/-- The three facts C9 needs about the computed order: the root is in it, all
handles in it are at most the root, and it is in parents-before-children
order. -/
theorem topological_sort_spec {st : Store} (hA : Acyclic st) (r : Nat) :
    r ∈ topological_sort st r ∧
    (∀ j ∈ topological_sort st r, j ≤ r) ∧
    okFrom st [] (topological_sort st r) := by
  obtain ⟨_, _, p3, p4, _, p6, p7⟩ :=
    topoSortAux_master hA (r + 1) r ([], []) (by omega) (by simp)
      trivial (by simp)
  refine ⟨p7, fun j hj => ?_, p4⟩
  rcases p6 j (p3 j hj) with h | h
  · exact absurd h (by simp)
  · exact h

theorem backward_isSome {st : Store} (hW : WellFormed st) (hA : Acyclic st)
    (r : Nat) (hr : r < st.length) : (backward st r).isSome := by
  unfold backward
  refine foldlM_backward_prev_total hW _ (setGrad st r 1)
    (sameShape_setGrad st r 1) (fun j hj => ?_)
  rw [List.mem_reverse] at hj
  have := (topological_sort_spec hA r).2.1 j hj
  omega

theorem backward_sameShape {st st2 : Store} {r : Nat}
    (hb : backward st r = some st2) : sameShape st st2 := by
  unfold backward at hb
  exact sameShape_trans (sameShape_setGrad st r 1)
    (foldlM_backward_prev_sameShape _ _ _ hb)

theorem backward_grad_root {st st2 : Store} (hA : Acyclic st) {r : Nat}
    (hr : r < st.length) (hb : backward st r = some st2) : gradAt st2 r = 1 := by
  unfold backward at hb
  obtain ⟨n, hn⟩ := get?_isSome_of_lt st r hr
  rw [foldlM_backward_prev_grad_frame hA r _ _ _
    (fun j hj => (topological_sort_spec hA r).2.1 j (List.mem_reverse.mp hj))
    (sameShape_setGrad st r 1) hb]
  exact gradAt_setGrad_self st r 1 n hn

/-- backward on a leaf (no op, no operands): the entire effect is the seed
write, the result heap is exactly setGrad st r 1. -/
theorem backward_leaf {st : Store} {r : Nat} {n : Node} (hn : st[r]? = some n)
    (hop : n.op = none) (hprev : n.prev = []) :
    backward st r = some (setGrad st r 1) := by
  have hch : childrenOf st r = [] := by
    rw [childrenOf_eq_of_get? hn, hprev]
  have htopo : topological_sort st r = [r] := by
    unfold topological_sort
    have e1 : topoSortAux st (r + 1) r ([], []) =
        (if r ∈ ([] : List Nat) then (([] : List Nat), ([] : List Nat))
         else
           (((childrenOf st r).foldl (fun x c => topoSortAux st r c x)
              ([], [r])).1 ++ [r],
            ((childrenOf st r).foldl (fun x c => topoSortAux st r c x)
              ([], [r])).2)) := rfl
    rw [e1, if_neg (by simp), hch]
    rfl
  have hr2 : (setGrad st r 1)[r]? = some { n with grad := 1 } := by
    unfold setGrad
    rw [updateAt_get?_self, hn]
    rfl
  unfold backward
  rw [htopo]
  show List.foldlM (fun s i => backward_prev s i) (setGrad st r 1) [r] = _
  rw [List.foldlM_cons]
  have hbp : backward_prev (setGrad st r 1) r = some (setGrad st r 1) := by
    simp only [backward_prev, hr2, hop]
  rw [hbp]
  rfl

/-! ### The constructor surface establishes the data-model invariants -/

theorem mkValue_get_new (st : Store) (d : ℚ) (ch : List Nat) (op : Option Op) :
    ((mkValue st d ch op).1)[(mkValue st d ch op).2]? =
      some { data := d, grad := 0, prev := ch, op := op } :=
  List.getElem?_concat_length st _

theorem dataAt_append (st : Store) (l : Store) {a : Nat} (ha : a < st.length) :
    dataAt (st ++ l) a = dataAt st a := by
  unfold dataAt
  rw [List.getElem?_append_left ha]

theorem wellFormed_append {st : Store} {n : Node} (hW : WellFormed st)
    (ha : n.prev.length = arity n.op) : WellFormed (st ++ [n]) := by
  intro m hm
  rcases List.mem_append.mp hm with h | h
  · exact hW m h
  · rw [List.mem_singleton.mp h]
    exact ha

theorem acyclic_append {st : Store} {n : Node} (hA : Acyclic st)
    (hc : ∀ c ∈ n.prev, c < st.length) : Acyclic (st ++ [n]) := by
  intro i m hget c hcm
  rcases Nat.lt_trichotomy i st.length with hlt | heq | hgt
  · rw [List.getElem?_append_left hlt] at hget
    exact hA i m hget c hcm
  · rw [← heq] at hc
    rw [heq, List.getElem?_concat_length] at hget
    obtain rfl := Option.some.inj hget
    exact hc c hcm
  · have : (st ++ [n])[i]? = none := by
      rw [List.getElem?_eq_none_iff]
      simp only [List.length_append, List.length_singleton]
      omega
    rw [this] at hget
    exact Option.noConfusion hget

/-- Every heap reachable through the graph-building surface satisfies the two
data-model invariants of the spec: arity matching and strictly-older operands. -/
theorem built_wellFormed_acyclic {st : Store} (h : Built st) :
    WellFormed st ∧ Acyclic st := by
  induction h with
  | nil => exact ⟨fun n hn => absurd hn (by simp), fun i n hn => by simp at hn⟩
  | leafB d _ ih =>
      exact ⟨wellFormed_append ih.1 rfl, acyclic_append ih.2 (by simp)⟩
  | addB _ ha hb ih =>
      refine ⟨wellFormed_append ih.1 rfl, acyclic_append ih.2 ?_⟩
      intro c hc
      rcases List.mem_cons.mp hc with e | h2
      · omega
      · rw [List.mem_singleton.mp h2]; omega
  | mulB _ ha hb ih =>
      refine ⟨wellFormed_append ih.1 rfl, acyclic_append ih.2 ?_⟩
      intro c hc
      rcases List.mem_cons.mp hc with e | h2
      · omega
      · rw [List.mem_singleton.mp h2]; omega
  | powB k _ ha ih =>
      refine ⟨wellFormed_append ih.1 rfl, acyclic_append ih.2 ?_⟩
      intro c hc
      rw [List.mem_singleton.mp hc]; omega
  | reluB _ ha ih =>
      refine ⟨wellFormed_append ih.1 rfl, acyclic_append ih.2 ?_⟩
      intro c hc
      rw [List.mem_singleton.mp hc]; omega
  | expB y _ ha ih =>
      refine ⟨wellFormed_append ih.1 rfl, acyclic_append ih.2 ?_⟩
      intro c hc
      rw [List.mem_singleton.mp hc]; omega
  | tanhB y _ ha ih =>
      refine ⟨wellFormed_append ih.1 rfl, acyclic_append ih.2 ?_⟩
      intro c hc
      rw [List.mem_singleton.mp hc]; omega

/-! ### Executable acyclicity check, for concrete witnesses -/

theorem acyclicFrom_spec :
    ∀ (st : Store) (k : Nat), acyclicFrom k st = true →
      ∀ (i : Nat) (n : Node), st[i]? = some n → ∀ c ∈ n.prev, c < k + i := by
  intro st
  induction st with
  | nil =>
      intro k _ i n hn
      rw [List.getElem?_nil] at hn
      exact Option.noConfusion hn
  | cons m rest ih =>
      intro k h i n hn c hc
      rw [acyclicFrom, Bool.and_eq_true] at h
      cases i with
      | zero =>
          rw [List.getElem?_cons_zero] at hn
          obtain rfl := Option.some.inj hn
          have := List.all_eq_true.mp h.1 c hc
          have hck : c < k := of_decide_eq_true this
          omega
      | succ j =>
          rw [List.getElem?_cons_succ] at hn
          have := ih (k + 1) h.2 j n hn c hc
          omega

theorem acyclic_of_bool {st : Store} (h : acyclicFrom 0 st = true) : Acyclic st := by
  intro i n hn c hc
  have := acyclicFrom_spec st 0 h i n hn c hc
  omega

instance : DecidablePred WellFormed := fun st => List.decidableBAll _ st

/-! ### The operator-overload surface of engine.rs, by shape -/

/-- The four arithmetic operators of the claim set. -/
inductive BinOp where
  | addOp
  | subOp
  | mulOp
  | divOp
  deriving DecidableEq, Repr

/-- The three operand shapes: node op node, node op f64, f64 op node. -/
inductive OperandShape where
  | nodeNode
  | nodeScalar
  | scalarNode
  deriving DecidableEq, Repr

/-- Transcription of which trait impl blocks exist in engine.rs (the reference
variants cover the same operand shapes as the owned ones): Add has all three
shapes, Sub has all three, Mul has all three, Div has only impl Div for Value
(node / node) — there is no Div of Value and f64 nor of f64 and Value. -/
def implementedInstances : List (BinOp × OperandShape) :=
  [(BinOp.addOp, OperandShape.nodeNode), (BinOp.addOp, OperandShape.nodeScalar),
   (BinOp.addOp, OperandShape.scalarNode),
   (BinOp.subOp, OperandShape.nodeNode), (BinOp.subOp, OperandShape.nodeScalar),
   (BinOp.subOp, OperandShape.scalarNode),
   (BinOp.mulOp, OperandShape.nodeNode), (BinOp.mulOp, OperandShape.nodeScalar),
   (BinOp.mulOp, OperandShape.scalarNode),
   (BinOp.divOp, OperandShape.nodeNode)]

/-! ### Concrete graphs used by the claims -/

/-- a = leaf(-1.0); y = relu(a): heap [a, y], y is handle 1. -/
def stRelu1 : Store := (reluV (leaf [] (-1)).1 0).1

/-- a = leaf(2.0); y = relu(a). -/
def stRelu2 : Store := (reluV (leaf [] 2).1 0).1

/-- a = leaf(2.0); y = pow(a, 3.0): heap [a, y], y.data = 8. -/
def stPow3 : Store := (powV (leaf [] 2).1 0 3).1

/-- a = leaf(1.0); m = a + a; n = m + m; y = n + n: handles 0..3. -/
def stChain : Store := (addVV (addVV (addVV (leaf [] 1).1 0 0).1 1 1).1 2 2).1

/-- a = leaf(d); y = a * a (both operands the same node by reference). -/
def stMulDiamond (d : ℚ) : Store := (mulVV (leaf [] d).1 0 0).1

/-- a = leaf(d); y = a + a. -/
def stAddDiamond (d : ℚ) : Store := (addVV (leaf [] d).1 0 0).1

/-- A single leaf whose grad was already set to 3 before backward is called. -/
def stPre : Store := [{ data := 5, grad := 3, prev := [], op := none }]

/-! ### Claims -/

unseal Rat.add Rat.mul Rat.sub Rat.inv in
/-- C1 (code_bug evidence): the source ReLU backward arm tests
value.grad() > 0.0, not y.data > 0.0.  For y = relu(a) with a.data = -1 the
seeded y.grad is 1 > 0, so the code adds 1 to a.grad even though y.data = 0:
the claim (and the spec rule) demand a.grad == 0 there.  With a.data = 2 the
code also gives 1, which happens to agree with the claim. -/
theorem claim_C1_relu_backward_eval :
    (backward stRelu1 1).map (fun s => gradAt s 0) = some 1 ∧
    (backward stRelu2 1).map (fun s => gradAt s 0) = some 1 ∧
    (1 : ℚ) ≠ 0 := by
  refine ⟨by decide, by decide, by norm_num⟩

unseal Rat.add Rat.mul Rat.sub Rat.inv in
/-- C2 (code_bug evidence): the Pow tag stores no exponent, and the source
backward arm computes g * (a.data * y.data^(a.data - 1)).  For y = pow(a, 3)
with a.data = 2 (so y.data = 8) this is 1 * (2 * 8^1) = 16, not the
claimed/specified 3 * 2^2 = 12. -/
theorem claim_C2_pow_backward_eval :
    (backward stPow3 1).map (fun s => gradAt s 0) = some 16 ∧
    (16 : ℚ) ≠ 3 * 2 ^ 2 := by
  refine ⟨by decide, by norm_num⟩

unseal Rat.add Rat.mul Rat.sub Rat.inv in
/-- C3 counterexample: in the chain a; m = a + a; n = m + m; y = n + n, the
first backward gives m.grad = 4, and a second backward without zeroing gives
m.grad = 12 ≠ 2 * 4.  m (handle 1) is an interior non-root ancestor of y, so
the claim "every interior ancestor ends with exactly twice its grad" fails. -/
theorem claim_C3_counterexample :
    (backward stChain 3).map (fun s => gradAt s 1) = some 4 ∧
    ((backward stChain 3).bind (fun s => backward s 3)).map
      (fun s => gradAt s 1) = some 12 ∧
    (12 : ℚ) ≠ 2 * 4 := by
  refine ⟨by decide, by decide, by norm_num⟩

unseal Rat.add Rat.mul Rat.sub Rat.inv in
/-- C3 amended: a second backward re-injects the seed into the already
populated graph; a direct operand of the root whose only consumer is the root
doubles, but deeper ancestors gain more than twice.  On the chain graph the
grads (a, m, n, y) go (8, 4, 2, 1) after the first call and (32, 12, 4, 1)
after the second: n doubles, m triples, a quadruples. -/
theorem claim_C3_second_backward_profile :
    (backward stChain 3).map
      (fun s => (gradAt s 0, gradAt s 1, gradAt s 2, gradAt s 3)) =
      some (8, 4, 2, 1) ∧
    ((backward stChain 3).bind (fun s => backward s 3)).map
      (fun s => (gradAt s 0, gradAt s 1, gradAt s 2, gradAt s 3)) =
      some (32, 12, 4, 1) ∧
    (4 : ℚ) = 2 * 2 ∧ (12 : ℚ) ≠ 2 * 4 ∧ (32 : ℚ) ≠ 2 * 8 := by
  refine ⟨by decide, by decide, by norm_num, by norm_num, by norm_num⟩

/-! ### Data and children of the mixed scalar forms -/

theorem dataAt_mkValue_new (st : Store) (d : ℚ) (ch : List Nat) (op : Option Op) :
    dataAt (mkValue st d ch op).1 (mkValue st d ch op).2 = d := by
  unfold dataAt
  rw [mkValue_get_new]
  rfl

theorem prevOf_mkValue (st : Store) (d : ℚ) (ch : List Nat) (op : Option Op) :
    (((mkValue st d ch op).1)[(mkValue st d ch op).2]?).map Node.prev = some ch := by
  rw [mkValue_get_new]
  rfl

theorem mkValue_length (st : Store) (d : ℚ) (ch : List Nat) (op : Option Op) :
    (mkValue st d ch op).1.length = st.length + 1 := by
  simp [mkValue]

theorem addVS_data {st : Store} {a : Nat} (c : ℚ) (ha : a < st.length) :
    dataAt (addVS st a c).1 (addVS st a c).2 = dataAt st a + c := by
  calc dataAt (addVS st a c).1 (addVS st a c).2
      = dataAt (leaf st c).1 a + dataAt (leaf st c).1 (leaf st c).2 :=
        dataAt_mkValue_new (leaf st c).1 _ _ _
    _ = dataAt st a + c := by
        rw [show dataAt (leaf st c).1 a = dataAt st a from dataAt_append st _ ha,
          show dataAt (leaf st c).1 (leaf st c).2 = c from
            dataAt_mkValue_new st c [] none]

theorem addSV_data {st : Store} {b : Nat} (c : ℚ) (hb : b < st.length) :
    dataAt (addSV st c b).1 (addSV st c b).2 = c + dataAt st b := by
  calc dataAt (addSV st c b).1 (addSV st c b).2
      = dataAt (leaf st c).1 (leaf st c).2 + dataAt (leaf st c).1 b :=
        dataAt_mkValue_new (leaf st c).1 _ _ _
    _ = c + dataAt st b := by
        rw [show dataAt (leaf st c).1 b = dataAt st b from dataAt_append st _ hb,
          show dataAt (leaf st c).1 (leaf st c).2 = c from
            dataAt_mkValue_new st c [] none]

theorem mulVS_data {st : Store} {a : Nat} (c : ℚ) (ha : a < st.length) :
    dataAt (mulVS st a c).1 (mulVS st a c).2 = dataAt st a * c := by
  calc dataAt (mulVS st a c).1 (mulVS st a c).2
      = dataAt (leaf st c).1 a * dataAt (leaf st c).1 (leaf st c).2 :=
        dataAt_mkValue_new (leaf st c).1 _ _ _
    _ = dataAt st a * c := by
        rw [show dataAt (leaf st c).1 a = dataAt st a from dataAt_append st _ ha,
          show dataAt (leaf st c).1 (leaf st c).2 = c from
            dataAt_mkValue_new st c [] none]

theorem negV_data {st : Store} {b : Nat} (hb : b < st.length) :
    dataAt (negV st b).1 (negV st b).2 = dataAt st b * (-1) :=
  mulVS_data (-1) hb

theorem subSV_data {st : Store} {b : Nat} (c : ℚ) (hb : b < st.length) :
    dataAt (subSV st c b).1 (subSV st c b).2 = c - dataAt st b := by
  have hlt : (negV st b).2 < (negV st b).1.length := by
    show (leaf st (-1)).1.length < (negV st b).1.length
    rw [show (negV st b).1.length = (leaf st (-1)).1.length + 1 from
      mkValue_length (leaf st (-1)).1 _ _ _]
    exact Nat.lt_succ_self _
  calc dataAt (subSV st c b).1 (subSV st c b).2
      = c + dataAt (negV st b).1 (negV st b).2 := addSV_data c hlt
    _ = c - dataAt st b := by rw [negV_data hb]; ring

theorem powf_neg_one (x : ℚ) : powf x (-1) = x⁻¹ := by
  unfold powf
  rw [if_pos (by decide : ((-1 : ℚ)).den = 1),
    show ((-1 : ℚ)).num = -1 by decide]
  exact zpow_neg_one x

theorem divVV_data {st : Store} {a : Nat} (b : Nat) (ha : a < st.length) :
    dataAt (divVV st a b).1 (divVV st a b).2 = dataAt st a * (dataAt st b)⁻¹ := by
  calc dataAt (divVV st a b).1 (divVV st a b).2
      = dataAt (powV st b (-1)).1 a * dataAt (powV st b (-1)).1 (powV st b (-1)).2 :=
        dataAt_mkValue_new (powV st b (-1)).1 _ _ _
    _ = dataAt st a * (dataAt st b)⁻¹ := by
        rw [show dataAt (powV st b (-1)).1 a = dataAt st a from dataAt_append st _ ha,
          show dataAt (powV st b (-1)).1 (powV st b (-1)).2 = powf (dataAt st b) (-1)
            from dataAt_mkValue_new st _ _ _, powf_neg_one]

/-- C4 counterexample: the operator surface of engine.rs has no Div impl for
(node, scalar) nor for (scalar, node): the claim that all four operators accept
all three operand shapes is false for division. -/
theorem claim_C4_counterexample :
    (BinOp.divOp, OperandShape.nodeScalar) ∉ implementedInstances ∧
    (BinOp.divOp, OperandShape.scalarNode) ∉ implementedInstances := by
  refine ⟨by decide, by decide⟩

/-- C4 amended: +, - and * accept all three operand shapes, with the scalar
lifted to a leaf carrying that data and the mixed result's data equal to that
of the corresponding all-node expression; division exists only as node / node
(self * other.pow(-1.0)). -/
theorem claim_C4_mixed_shapes :
    ((BinOp.addOp, OperandShape.nodeNode) ∈ implementedInstances ∧
     (BinOp.addOp, OperandShape.nodeScalar) ∈ implementedInstances ∧
     (BinOp.addOp, OperandShape.scalarNode) ∈ implementedInstances ∧
     (BinOp.subOp, OperandShape.nodeNode) ∈ implementedInstances ∧
     (BinOp.subOp, OperandShape.nodeScalar) ∈ implementedInstances ∧
     (BinOp.subOp, OperandShape.scalarNode) ∈ implementedInstances ∧
     (BinOp.mulOp, OperandShape.nodeNode) ∈ implementedInstances ∧
     (BinOp.mulOp, OperandShape.nodeScalar) ∈ implementedInstances ∧
     (BinOp.mulOp, OperandShape.scalarNode) ∈ implementedInstances ∧
     (BinOp.divOp, OperandShape.nodeNode) ∈ implementedInstances) ∧
    (∀ (st : Store) (a : Nat) (c : ℚ), a < st.length →
      dataAt (addVS st a c).1 (addVS st a c).2 = dataAt st a + c ∧
      dataAt (addSV st c a).1 (addSV st c a).2 = c + dataAt st a ∧
      dataAt (mulVS st a c).1 (mulVS st a c).2 = dataAt st a * c ∧
      dataAt (mulSV st c a).1 (mulSV st c a).2 = c * dataAt st a ∧
      dataAt (subVS st a c).1 (subVS st a c).2 = dataAt st a - c ∧
      dataAt (subSV st c a).1 (subSV st c a).2 = c - dataAt st a ∧
      ((leaf st c).1)[st.length]? =
        some { data := c, grad := 0, prev := [], op := none }) ∧
    (∀ (st : Store) (a b : Nat), a < st.length →
      dataAt (divVV st a b).1 (divVV st a b).2 = dataAt st a * (dataAt st b)⁻¹) := by
  refine ⟨⟨by decide, by decide, by decide, by decide, by decide, by decide,
    by decide, by decide, by decide, by decide⟩, ?_, fun st a b ha => divVV_data b ha⟩
  intro st a c ha
  refine ⟨addVS_data c ha, addSV_data c ha, mulVS_data c ha, ?_, ?_,
    subSV_data c ha, mkValue_get_new st c [] none⟩
  · rw [show dataAt (mulSV st c a).1 (mulSV st c a).2 = dataAt st a * c from
      mulVS_data c ha]
    ring
  · rw [show dataAt (subVS st a c).1 (subVS st a c).2 = dataAt st a + (-c) from
      addVS_data (-c) ha]
    ring

/-- C4 witness at a concrete heap. -/
theorem claim_C4_witness :
    dataAt (addVS stPre 0 7).1 (addVS stPre 0 7).2 = dataAt stPre 0 + 7 ∧
    dataAt (divVV stPre 0 0).1 (divVV stPre 0 0).2 =
      dataAt stPre 0 * (dataAt stPre 0)⁻¹ :=
  ⟨(claim_C4_mixed_shapes.2.1 stPre 0 7 (by decide)).1,
   claim_C4_mixed_shapes.2.2 stPre 0 0 (by decide)⟩

/-- C5 counterexample: rvalue is a public method and indexes _prev[1]; on the
well-formed unary graph y = relu(a), built through the public constructors,
the public call y.rvalue() hits an arity violation (modelled as none, a panic
in the source).  So not every public call on a well-formed input returns
normally. -/
theorem claim_C5_counterexample :
    Built stRelu1 ∧ WellFormed stRelu1 ∧ rvalue stRelu1 1 = none := by
  refine ⟨Built.reluB (Built.leafB (-1) Built.nil) (by decide), by decide, by decide⟩

/-- C5 amended: the graph-building surface only produces heaps satisfying the
arity and acyclicity invariants, and on any such heap backward is total (the
arity violation is unreachable from backward).  The unrestricted public
Value::new and the public lvalue/rvalue accessors remain outside this
guarantee. -/
theorem claim_C5_safety :
    (∀ st : Store, Built st → WellFormed st ∧ Acyclic st) ∧
    (∀ (st : Store) (r : Nat), WellFormed st → Acyclic st → r < st.length →
      (backward st r).isSome) :=
  ⟨fun _ h => built_wellFormed_acyclic h,
   fun _ r hW hA hr => backward_isSome hW hA r hr⟩

/-- C5 witness: the chain graph is built by the surface, is well-formed and
acyclic, and backward succeeds on it. -/
theorem claim_C5_witness :
    (WellFormed stChain ∧ Acyclic stChain) ∧ (backward stChain 3).isSome :=
  ⟨claim_C5_safety.1 stChain
    (Built.addB (Built.addB (Built.addB (Built.leafB 1 Built.nil)
      (by decide) (by decide)) (by decide) (by decide)) (by decide) (by decide)),
   claim_C5_safety.2 stChain 3 (by decide) (acyclic_of_bool (by decide))
     (by decide)⟩

/-- C6 counterexample: the source impl of f64 * Value is other * self, so for
n = 3.0 * a over the single-leaf heap [a], the new node's children are
[0, 1] = [a, lifted-leaf]: the FIRST child is the node a (data 5) and the
second is the leaf lifted from the scalar (data 3), contradicting the claim
that the lifted leaf comes first. -/
theorem claim_C6_counterexample :
    (((mulSV (leaf [] 5).1 3 0).1)[2]?).map Node.prev = some [0, 1] ∧
    ((mulSV (leaf [] 5).1 3 0).1)[1]? =
      some { data := 3, grad := 0, prev := [], op := none } ∧
    (0 : Nat) ≠ 1 := by
  refine ⟨by decide, by decide, by decide⟩

/-- C6 amended: binary nodes list their operands left-first as consumed by the
trait impl that actually runs: node op node gives [a, b]; node + scalar and
node * scalar lift the scalar as the SECOND child; scalar + node lifts it as
the FIRST child; but scalar * node is evaluated as node * scalar, so its
children are [node, lifted leaf].  The lifted leaf is a fresh leaf carrying
the scalar. -/
theorem claim_C6_children_order :
    (∀ (st : Store) (a b : Nat),
      (((addVV st a b).1)[(addVV st a b).2]?).map Node.prev = some [a, b] ∧
      (((mulVV st a b).1)[(mulVV st a b).2]?).map Node.prev = some [a, b]) ∧
    (∀ (st : Store) (c : ℚ) (b : Nat),
      (((addVS st b c).1)[(addVS st b c).2]?).map Node.prev = some [b, st.length] ∧
      (((addSV st c b).1)[(addSV st c b).2]?).map Node.prev = some [st.length, b] ∧
      (((mulVS st b c).1)[(mulVS st b c).2]?).map Node.prev = some [b, st.length] ∧
      (((mulSV st c b).1)[(mulSV st c b).2]?).map Node.prev = some [b, st.length] ∧
      ((leaf st c).1)[st.length]? =
        some { data := c, grad := 0, prev := [], op := none }) :=
  ⟨fun st a b => ⟨prevOf_mkValue st _ _ _, prevOf_mkValue st _ _ _⟩,
   fun st c b => ⟨prevOf_mkValue (leaf st c).1 _ _ _,
     prevOf_mkValue (leaf st c).1 _ _ _, prevOf_mkValue (leaf st c).1 _ _ _,
     prevOf_mkValue (leaf st c).1 _ _ _, mkValue_get_new st c [] none⟩⟩

/-- C7: diamond DAGs accumulate one contribution per outgoing edge: for a leaf
a of any data d, backward on y = a * a (both operands the same handle) gives
a.grad = 2d, and on y = a + a gives a.grad = 2. -/
theorem claim_C7_diamond (d : ℚ) :
    (backward (stMulDiamond d) 1).map (fun s => gradAt s 0) = some (2 * d) ∧
    (backward (stAddDiamond d) 1).map (fun s => gradAt s 0) = some 2 := by
  constructor
  · have h : (backward (stMulDiamond d) 1).map (fun s => gradAt s 0) =
        some (0 + 1 * d + 1 * d) := rfl
    rw [h, Option.some.injEq]
    ring
  · have h : (backward (stAddDiamond d) 1).map (fun s => gradAt s 0) =
        some ((0 : ℚ) + 1 + 1) := rfl
    rw [h, Option.some.injEq]
    norm_num

/-- C8: backward overwrites the root grad to 1 (no accumulation with the
pre-call value), and on a leaf root the whole call is exactly that one write. -/
theorem claim_C8_root_seed :
    (∀ (st : Store) (r : Nat) (st2 : Store), Acyclic st → r < st.length →
      backward st r = some st2 → gradAt st2 r = 1) ∧
    (∀ (st : Store) (r : Nat) (n : Node), st[r]? = some n → n.op = none →
      n.prev = [] → backward st r = some (setGrad st r 1)) :=
  ⟨fun _ _ _ hA hr hb => backward_grad_root hA hr hb,
   fun _ _ _ hn hop hprev => backward_leaf hn hop hprev⟩

/-- C8 witness: a leaf whose grad was pre-set to 3 ends with grad exactly 1. -/
theorem claim_C8_witness :
    gradAt (setGrad stPre 0 1) 0 = 1 ∧
    backward stPre 0 = some (setGrad stPre 0 1) :=
  ⟨claim_C8_root_seed.1 stPre 0 (setGrad stPre 0 1)
    (acyclic_of_bool (by decide)) (by decide) (by decide),
   claim_C8_root_seed.2 stPre 0 { data := 5, grad := 3, prev := [], op := none }
     (by decide) (by decide) (by decide)⟩

/-- C9: on an acyclic heap the recursive DFS terminates (its result does not
depend on the stack bound once it exceeds the root handle) and emits a
topological order: the root is emitted, and every emitted node's operands are
emitted at strictly earlier positions.  The visited set is keyed by handle
identity (index equality, the embedding of Rc::ptr_eq). -/
theorem claim_C9_topo (st : Store) (r : Nat) (hA : Acyclic st) :
    (∀ fuel : Nat, r < fuel →
      topoSortAux st fuel r ([], []) = topoSortAux st (r + 1) r ([], [])) ∧
    r ∈ topological_sort st r ∧
    (∀ (k i : Nat), (topological_sort st r)[k]? = some i →
      ∀ c ∈ childrenOf st i, ∃ m, m < k ∧ (topological_sort st r)[m]? = some c) := by
  refine ⟨fun fuel hf =>
    topoSortAux_fuel_irrel hA r fuel (r + 1) ([], []) hf (by omega),
    (topological_sort_spec hA r).1, ?_⟩
  intro k i hk c hc
  rcases okFrom_position st (topological_sort st r) []
    (topological_sort_spec hA r).2.2 k i hk c hc with h | h
  · exact absurd h (by simp)
  · exact h

/-- C9 witness on the chain graph. -/
theorem claim_C9_witness :
    3 ∈ topological_sort stChain 3 ∧
    topoSortAux stChain 10 3 ([], []) = topoSortAux stChain 4 3 ([], []) :=
  ⟨(claim_C9_topo stChain 3 (acyclic_of_bool (by decide))).2.1,
   (claim_C9_topo stChain 3 (acyclic_of_bool (by decide))).1 10 (by decide)⟩

/-- C10: backward mutates only grads: the heap it returns has the same length
and, at every handle, the same data, the same op tag, and the same operand
list as the input heap. -/
theorem claim_C10_frame (st : Store) (r : Nat) (st2 : Store)
    (hb : backward st r = some st2) : sameShape st st2 :=
  backward_sameShape hb

/-- The heap after one backward over the chain graph. -/
def stChainRes : Store := (backward stChain 3).getD []

unseal Rat.add Rat.mul Rat.sub Rat.inv in
/-- C10 witness on the chain graph. -/
theorem claim_C10_witness : sameShape stChain stChainRes :=
  claim_C10_frame stChain 3 stChainRes (by decide)

/-- C6 witness: scalar + node over a one-leaf heap puts the lifted leaf first. -/
theorem claim_C6_witness :
    (((addSV (leaf [] 5).1 3 0).1)[(addSV (leaf [] 5).1 3 0).2]?).map Node.prev =
      some [(leaf [] 5).1.length, 0] :=
  (claim_C6_children_order.2 (leaf [] 5).1 3 0).2.1

/-- C7 witness at d = 3. -/
theorem claim_C7_witness :
    (backward (stMulDiamond 3) 1).map (fun s => gradAt s 0) = some (2 * 3) ∧
    (backward (stAddDiamond 3) 1).map (fun s => gradAt s 0) = some 2 :=
  ⟨(claim_C7_diamond 3).1, (claim_C7_diamond 3).2⟩

end Micrograd
